import Mathlib

/-
  Verification of the Linux platform layer of llmalloc
  (src/llmalloc/src/platform/linux.rs) against its specification.

  The source file is shallowly embedded below.  OS calls (mmap, munmap,
  getcpu, numa_distance, pthread_key_create, pthread_getspecific,
  pthread_setspecific) are modeled by passing their observable results in
  as parameters, or, for the thread-local state, by an explicit state
  record.  Failed `assert!` macros (process termination) are modeled by
  the `Outcome.abort` constructor.  Machine integers are modeled as
  Nat/Int with explicit reduction modulo 2^32 / 2^64 where the source
  performs `as` casts.
-/

namespace Llmalloc

/-- Result of an operation of the platform layer: either the process is
terminated by a failed `assert!` (`abort`), or the operation returns a
value normally (`ret`). -/
inductive Outcome (α : Type) where
  | abort : Outcome α
  | ret : α → Outcome α
  deriving DecidableEq

/-- The huge page size of `LLConfiguration`: 1 GB, from
`const HUGE_PAGE_SIZE: PowerOf2 = ... (1024 * 1024 * 1024)`. -/
def HUGE_PAGE_SIZE : Nat := 1024 * 1024 * 1024

/-- The large page size of `LLConfiguration`: 2 MB. -/
def LARGE_PAGE_SIZE : Nat := 2 * 1024 * 1024

/-- The sentinel returned by `mmap` on failure, `!0 as *mut u8`, i.e. the
all-ones 64-bit pointer value. -/
def MMAP_FAILED : Nat := 2 ^ 64 - 1

/-- Embedding of `mmap_simplified` from linux.rs.  `os` is the pointer
value returned by the OS `mmap` call (as a 64-bit unsigned value).  The
source compares the result against `FAILURE = !0` and returns a null
pointer (0) on failure, the OS pointer otherwise. -/
def mmap_simplified (os : Nat) : Nat :=
  if os ≠ MMAP_FAILED then os else 0

/-- Embedding of `LLPlatform::allocate` from linux.rs.  `size` and
`align` are `layout.size()` and `layout.align()`; `os` is the result the
OS `mmap` call would return.  The three `assert!` calls of the source
become `Outcome.abort` branches, in source order: size divisibility,
alignment bound, and alignment of the returned candidate.  On normal
return the allocated region is the pair (address, length). -/
def allocate (size align : Nat) (os : Nat) : Outcome (Nat × Nat) :=
  if size % HUGE_PAGE_SIZE ≠ 0 then Outcome.abort
  else if HUGE_PAGE_SIZE < align then Outcome.abort
  else
    let candidate := mmap_simplified os
    if candidate % HUGE_PAGE_SIZE ≠ 0 then Outcome.abort
    else Outcome.ret (candidate, size)

/-- Embedding of `LLPlatform::deallocate` from linux.rs:
`let result = munmap(pointer, layout.size()); assert!(result != 0, ..)`.
`osResult` is the value returned by the OS `munmap` call.  The assertion
passes (normal return) exactly when that value is nonzero, and the
process aborts exactly when it is zero. -/
def deallocate (osResult : Int) : Outcome Unit :=
  if osResult ≠ 0 then Outcome.ret () else Outcome.abort

/-- Embedding of `LLThreadLocal::create_key` from linux.rs.  `osResult`
is the value returned by `pthread_key_create` and `osKey` the u32 key it
wrote (reduced modulo 2^32 to model the u32 out-parameter).  The source
asserts `result == 0` (aborting otherwise) and returns `key as i64`. -/
def create_key (osResult : Int) (osKey : Nat) : Outcome Int :=
  if osResult = 0 then Outcome.ret ((osKey % 2 ^ 32 : Nat) : Int) else Outcome.abort

/-- Embedding of the tail of `LLThreadLocal::set` from linux.rs:
`let result = pthread_setspecific(key, value); assert!(result == 0, ..)`.
`osResult` is the value returned by `pthread_setspecific`. -/
def set_store (osResult : Int) : Outcome Unit :=
  if osResult = 0 then Outcome.ret () else Outcome.abort

/-- Reinterpretation of a u32 value as an i32, modeling the Rust cast
`original.value() as i32` (two's complement truncation). -/
def toI32 (n : Nat) : Int :=
  if n % 2 ^ 32 < 2 ^ 31 then ((n % 2 ^ 32 : Nat) : Int)
  else ((n % 2 ^ 32 : Nat) : Int) - 2 ^ 32

/-- Truncation of an Int to a u32 value, modeling the Rust casts
`... as u32` from i32 or i64 (two's complement truncation keeps the low
32 bits, i.e. the value modulo 2^32). -/
def toU32 (i : Int) : Nat := (i % 2 ^ 32).toNat

/-- Embedding of `select_node` from linux.rs.  `dist` models the
`numa_distance` OS call (distance table).  The source casts the u32 node
value to i32, iterates `current` over `0..original` (empty when
`original ≤ 0`), returns the first candidate whose distance to
`original` is at most 11 (cast back to u32), and otherwise returns
`original as u32`. -/
def select_node (dist : Int → Int → Int) (node : Nat) : Nat :=
  match (List.range (toI32 node).toNat).find?
      (fun (c : Nat) => decide (dist (c : Int) (toI32 node) ≤ 11)) with
  | some c => c % 2 ^ 32
  | none => toU32 (toI32 node)

/-- Embedding of `Platform::current_node` for `LLPlatform`: the node the
OS reports via `getcpu` (a u32, the `detected` argument) is passed
through `select_node`. -/
def current_node (dist : Int → Int → Int) (detected : Nat) : Nat :=
  select_node dist (detected % 2 ^ 32)

/-- Modelled from the spec (reference definition for the clustering
claim): scan candidates `c` in increasing order over `[0, d)` and return
the first with `dist c d ≤ 11`, else `d` itself. -/
def select_node_ref (dist : Int → Int → Int) (d : Nat) : Nat :=
  ((List.range d).find? (fun (c : Nat) => decide (dist (c : Int) (d : Int) ≤ 11))).getD d

/-- The synthetic distance table of the specification: nodes {0,1,2},
distance(0,2) = 11, distance(1,2) = 21, distance(2,2) = 10. -/
def synthDist : Int → Int → Int := fun l r =>
  if l = 0 ∧ r = 2 then 11
  else if l = 1 ∧ r = 2 then 21
  else if l = 2 ∧ r = 2 then 10
  else 20

/-- State of one thread-local slot together with the observable OS
thread-local mechanism.  Pointers are modeled as natural numbers with 0
the null pointer.  `reg` is the slot's atomic i64 key register;
`created` records which u32 keys have been handed out by
pthread_key_create; `tls` is the OS thread-local store, thread id → key
→ stored pointer (0 when no value was stored); `calls` counts the
pthread_key_create calls made so far. -/
structure TLState where
  reg : Int
  created : Nat → Bool
  tls : Nat → Nat → Nat
  calls : Nat

/-- Embedding of `ThreadLocal::get` for LLThreadLocal, executed by
thread `t`: load the key register and call `pthread_getspecific(key as
u32)` on it.  The source performs no store, no compare-and-swap and no
key creation in get, so the state component of the result is the input
state. -/
def LLget (s : TLState) (t : Nat) : TLState × Nat :=
  (s, s.tls t (toU32 s.reg))

/-- Embedding of `LLThreadLocal::get_key` as executed atomically by one
thread in a sequential (uncontended) trace: a nonnegative register is
returned directly, cast to u32; on an Uninitialized (-1) register the
caller wins the compare-and-swap, creates the OS key (the oracle value
`K`, reduced to u32 as pthread_key_create writes a u32), publishes it in
the register and returns it.  A register value of -2 would make a caller
spin for another thread's publish; it cannot occur between the atomic
operations of a sequential trace from the initial state and is mapped to
key 0 here. -/
def get_key_seq (K : Nat) (s : TLState) : TLState × Nat :=
  if 0 ≤ s.reg then (s, toU32 s.reg)
  else if s.reg = -1 then
    ({ s with reg := ((K % 2 ^ 32 : Nat) : Int),
              created := fun k => decide (k = K % 2 ^ 32) || s.created k,
              calls := s.calls + 1 }, K % 2 ^ 32)
  else (s, 0)

/-- Embedding of `ThreadLocal::set` executed atomically by thread `t`
with value `v` in a sequential trace: obtain the key via get_key
(possibly creating and publishing the OS key) and store `v` for the
calling thread under that key via `pthread_setspecific` (the successful
store; a failing store aborts, see set_store). -/
def LLset (K : Nat) (s : TLState) (t v : Nat) : TLState :=
  { (get_key_seq K s).1 with
    tls := fun t' k =>
      if t' = t ∧ k = (get_key_seq K s).2 then v else (get_key_seq K s).1.tls t' k }

/-- The initial state of a slot: register Uninitialized (-1), no key
created, no thread has any stored value. -/
def initTL : TLState :=
  { reg := -1, created := fun _ => false, tls := fun _ _ => 0, calls := 0 }

/-- Run a sequence of set operations (thread id, value) from the initial
state. -/
def execSets (K : Nat) (ops : List (Nat × Nat)) : TLState :=
  ops.foldl (fun s op => LLset K s op.1 op.2) initTL

/-- The per-thread assignment resulting from a sequence of (thread,
value) writes applied to `f`. -/
def applyOps (f : Nat → Nat) : List (Nat × Nat) → (Nat → Nat)
  | [] => f
  | op :: ops => applyOps (Function.update f op.1 op.2) ops

/-- The shape of the slot state after at least one set: the key is
published, exactly one pthread_key_create call was made, and each thread
holds its value under the published key. -/
def midTL (K : Nat) (f : Nat → Nat) : TLState :=
  { reg := ((K % 2 ^ 32 : Nat) : Int),
    created := fun k => decide (k = K % 2 ^ 32),
    tls := fun t k => if k = K % 2 ^ 32 then f t else 0,
    calls := 1 }

lemma toU32_mod (K : Nat) : toU32 ((K % 2 ^ 32 : Nat) : Int) = K % 2 ^ 32 := by
  unfold toU32
  omega

lemma get_key_seq_mid (K : Nat) (f : Nat → Nat) :
    get_key_seq K (midTL K f) = (midTL K f, K % 2 ^ 32) := by
  unfold get_key_seq
  rw [if_pos (show (0 : Int) ≤ (midTL K f).reg from Int.natCast_nonneg _)]
  show (midTL K f, toU32 ((K % 2 ^ 32 : Nat) : Int)) = (midTL K f, K % 2 ^ 32)
  rw [toU32_mod]

lemma TLStateExt (a b : TLState) (h1 : a.reg = b.reg) (h2 : a.created = b.created)
    (h3 : a.tls = b.tls) (h4 : a.calls = b.calls) : a = b := by
  cases a
  cases b
  simp_all

lemma LLset_mid (K : Nat) (f : Nat → Nat) (t v : Nat) :
    LLset K (midTL K f) t v = midTL K (Function.update f t v) := by
  unfold LLset
  rw [get_key_seq_mid]
  refine TLStateExt _ _ rfl rfl ?_ rfl
  funext t' k
  show (if t' = t ∧ k = K % 2 ^ 32 then v else (midTL K f).tls t' k)
      = (midTL K (Function.update f t v)).tls t' k
  show (if t' = t ∧ k = K % 2 ^ 32 then v else if k = K % 2 ^ 32 then f t' else 0)
      = (if k = K % 2 ^ 32 then Function.update f t v t' else 0)
  by_cases ht : t' = t
  · subst ht
    by_cases hk : k = K % 2 ^ 32
    · subst hk
      rw [if_pos ⟨rfl, rfl⟩, if_pos rfl, Function.update_same]
    · rw [if_neg (fun hc => hk hc.2), if_neg hk, if_neg hk]
  · rw [if_neg (fun hc => ht hc.1), Function.update_noteq ht]

lemma LLset_initTL (K : Nat) (t v : Nat) :
    LLset K initTL t v = midTL K (Function.update (fun _ => 0) t v) := by
  unfold LLset
  have hg : get_key_seq K initTL =
      ({ reg := ((K % 2 ^ 32 : Nat) : Int),
         created := fun k => decide (k = K % 2 ^ 32) || false,
         tls := fun _ _ => 0, calls := 1 }, K % 2 ^ 32) := by
    unfold get_key_seq initTL
    rw [if_neg (by decide), if_pos rfl]
  rw [hg]
  refine TLStateExt _ _ rfl ?_ ?_ rfl
  · funext k
    show (decide (k = K % 2 ^ 32) || false) = decide (k = K % 2 ^ 32)
    exact Bool.or_false _
  · funext t' k
    show (if t' = t ∧ k = K % 2 ^ 32 then v else 0)
        = (if k = K % 2 ^ 32 then Function.update (fun _ => 0) t v t' else 0)
    by_cases ht : t' = t
    · subst ht
      by_cases hk : k = K % 2 ^ 32
      · subst hk
        rw [if_pos ⟨rfl, rfl⟩, if_pos rfl, Function.update_same]
      · rw [if_neg (fun hc => hk hc.2), if_neg hk]
    · rw [if_neg (fun hc => ht hc.1), Function.update_noteq ht]
      show (0 : Nat) = if k = K % 2 ^ 32 then 0 else 0
      rw [ite_self]

lemma exec_fold_mid (K : Nat) (ops : List (Nat × Nat)) :
    ∀ f : Nat → Nat,
      ops.foldl (fun s op => LLset K s op.1 op.2) (midTL K f) = midTL K (applyOps f ops) := by
  induction ops with
  | nil => intro f; rfl
  | cons op ops ih =>
      intro f
      rw [List.foldl_cons, LLset_mid, ih]
      rfl

lemma execSets_cons (K : Nat) (op : Nat × Nat) (ops : List (Nat × Nat)) :
    execSets K (op :: ops) = midTL K (applyOps (fun _ => 0) (op :: ops)) := by
  unfold execSets
  rw [List.foldl_cons, LLset_initTL, exec_fold_mid]
  rfl

lemma applyOps_not_mem (f : Nat → Nat) (ops : List (Nat × Nat)) (t : Nat)
    (h : t ∉ ops.map Prod.fst) : applyOps f ops t = f t := by
  induction ops generalizing f with
  | nil => rfl
  | cons op ops ih =>
      simp only [List.map_cons, List.mem_cons, not_or] at h
      show applyOps (Function.update f op.1 op.2) ops t = f t
      rw [ih _ h.2, Function.update_noteq h.1]

lemma applyOps_append (f : Nat → Nat) (l1 l2 : List (Nat × Nat)) :
    applyOps f (l1 ++ l2) = applyOps (applyOps f l1) l2 := by
  induction l1 generalizing f with
  | nil => rfl
  | cons op l1 ih =>
      rw [List.cons_append]
      show applyOps (Function.update f op.1 op.2) (l1 ++ l2) = _
      exact ih _

lemma LLget_mid (K : Nat) (f : Nat → Nat) (t : Nat) :
    (LLget (midTL K f) t).2 = f t := by
  show (midTL K f).tls t (toU32 (midTL K f).reg) = f t
  show (if toU32 ((K % 2 ^ 32 : Nat) : Int) = K % 2 ^ 32 then f t else 0) = f t
  rw [toU32_mod, if_pos rfl]

/-- Thread program locations inside the slow path of
`LLThreadLocal::get_key` (the lazy-initialization protocol).  The Int
payload of cas, publish, spin and done is the thread's local `key`
variable (an i64 in the source). -/
inductive TPc where
  | start : TPc
  | cas : Int → TPc
  | create : TPc
  | publish : Int → TPc
  | spin : Int → TPc
  | done : Int → TPc
  deriving DecidableEq

/-- Global protocol state for n threads racing on one slot: the slot's
atomic i64 key register, each thread's location, and the number of
pthread_key_create calls made so far. -/
structure PState (n : Nat) where
  reg : Int
  pc : Fin n → TPc
  calls : Nat

/-- Initial protocol state: the register holds Uninitialized (-1), as
set by `LLThreadLocal::new`, every thread is about to run the slow path,
no OS key-creation call has been made. -/
def initP (n : Nat) : PState n := ⟨-1, fun _ => TPc.start, 0⟩

/-- The i64 value of the key the OS hands out: pthread_key_create writes
a u32 (the oracle value K reduced modulo 2^32), which create_key widens
with `key as i64`. -/
def keyInt (K : Nat) : Int := ((K % 2 ^ 32 : Nat) : Int)

/-- One atomic step of the protocol by one thread, faithful to the
source of the slow path and create_key: the initial relaxed load into
the local key variable; the compare-and-swap of Uninitialized (-1)
against UnderInitialization (-2), won exactly when the register still
holds -1 (losing keeps the previously loaded local key); the successful
OS key creation by the winner; the winner's relaxed store publishing the
key; and the while loop, which exits with the local key once that is
nonnegative and otherwise yields and re-loads the register. -/
inductive PStep (K : Nat) {n : Nat} : PState n → PState n → Prop where
  | load (s : PState n) (t : Fin n) :
      s.pc t = TPc.start →
      PStep K s ⟨s.reg, Function.update s.pc t (TPc.cas s.reg), s.calls⟩
  | casWin (s : PState n) (t : Fin n) (k : Int) :
      s.pc t = TPc.cas k → s.reg = -1 →
      PStep K s ⟨-2, Function.update s.pc t TPc.create, s.calls⟩
  | casLose (s : PState n) (t : Fin n) (k : Int) :
      s.pc t = TPc.cas k → s.reg ≠ -1 →
      PStep K s ⟨s.reg, Function.update s.pc t (TPc.spin k), s.calls⟩
  | createKey (s : PState n) (t : Fin n) :
      s.pc t = TPc.create →
      PStep K s ⟨s.reg, Function.update s.pc t (TPc.publish (keyInt K)), s.calls + 1⟩
  | publishKey (s : PState n) (t : Fin n) (k : Int) :
      s.pc t = TPc.publish k →
      PStep K s ⟨k, Function.update s.pc t (TPc.spin k), s.calls⟩
  | spinExit (s : PState n) (t : Fin n) (k : Int) :
      s.pc t = TPc.spin k → 0 ≤ k →
      PStep K s ⟨s.reg, Function.update s.pc t (TPc.done k), s.calls⟩
  | spinLoop (s : PState n) (t : Fin n) (k : Int) :
      s.pc t = TPc.spin k → k < 0 →
      PStep K s ⟨s.reg, Function.update s.pc t (TPc.spin s.reg), s.calls⟩

/-- States reachable from the initial state under any interleaving. -/
inductive PReach (K : Nat) {n : Nat} : PState n → Prop where
  | init : PReach K (initP n)
  | step {s s' : PState n} : PReach K s → PStep K s s' → PReach K s'

/-- A thread is a winner when it is between its successful
compare-and-swap and its publishing store. -/
def isWinner : TPc → Prop
  | TPc.create => True
  | TPc.publish _ => True
  | _ => False

/-- Per-thread invariant relating a thread's location and local key to
the register value. -/
def localOK (K : Nat) (reg : Int) : TPc → Prop
  | TPc.start => True
  | TPc.cas k => (k = -1 ∨ k = -2 ∨ k = keyInt K) ∧ (0 ≤ k → reg = keyInt K)
  | TPc.create => reg = -2
  | TPc.publish k => k = keyInt K ∧ reg = -2
  | TPc.spin k => (k = -1 ∨ k = -2 ∨ k = keyInt K) ∧ (0 ≤ k → reg = keyInt K)
  | TPc.done k => k = keyInt K ∧ reg = keyInt K

/-- Global protocol invariant: the register only ever holds -1, -2 or
the published key; at most one key-creation call is made and only while
the register holds -2; there is exactly one winner while the register
holds -2 and none otherwise. -/
def PInv (K : Nat) {n : Nat} (s : PState n) : Prop :=
  (s.reg = -1 ∨ s.reg = -2 ∨ s.reg = keyInt K) ∧
  (∀ t, localOK K s.reg (s.pc t)) ∧
  (s.reg = -1 → s.calls = 0 ∧ ∀ t, ¬ isWinner (s.pc t)) ∧
  (s.reg = -2 → ∃ t, ((s.pc t = TPc.create ∧ s.calls = 0) ∨
        (s.pc t = TPc.publish (keyInt K) ∧ s.calls = 1)) ∧
      ∀ u, isWinner (s.pc u) → u = t) ∧
  (0 ≤ s.reg → s.calls = 1 ∧ ∀ t, ¬ isWinner (s.pc t))

lemma keyInt_nonneg (K : Nat) : 0 ≤ keyInt K := Int.natCast_nonneg _

lemma keyInt_lt (K : Nat) : keyInt K < 2 ^ 32 := by
  unfold keyInt
  omega

lemma not_isWinner_start : ¬ isWinner TPc.start := fun h => h

lemma not_isWinner_cas (k : Int) : ¬ isWinner (TPc.cas k) := fun h => h

lemma not_isWinner_spin (k : Int) : ¬ isWinner (TPc.spin k) := fun h => h

lemma not_isWinner_done (k : Int) : ¬ isWinner (TPc.done k) := fun h => h

lemma noWinner_update {n : Nat} {pc : Fin n → TPc} {t : Fin n} {p : TPc}
    (hp : ¬ isWinner p) (h : ∀ u, ¬ isWinner (pc u)) :
    ∀ u, ¬ isWinner (Function.update pc t p u) := by
  intro u
  by_cases hu : u = t
  · subst hu
    rw [Function.update_same]
    exact hp
  · rw [Function.update_noteq hu]
    exact h u

lemma localOK_neg1_to_neg2 {K : Nat} {p : TPc} (h : localOK K (-1) p) :
    localOK K (-2) p := by
  have h0 := keyInt_nonneg K
  cases p with
  | start => trivial
  | cas k => exact ⟨h.1, fun hk => absurd (h.2 hk) (by omega)⟩
  | create => exact absurd h (by unfold localOK; omega)
  | publish k => exact absurd h.2 (by omega)
  | spin k => exact ⟨h.1, fun hk => absurd (h.2 hk) (by omega)⟩
  | done k => exact absurd h.2 (by omega)

lemma localOK_neg2_to_key {K : Nat} {p : TPc} (h : localOK K (-2) p)
    (hnw : ¬ isWinner p) : localOK K (keyInt K) p := by
  have h0 := keyInt_nonneg K
  cases p with
  | start => trivial
  | cas k => exact ⟨h.1, fun _ => rfl⟩
  | create => exact absurd trivial hnw
  | publish k => exact absurd trivial hnw
  | spin k => exact ⟨h.1, fun _ => rfl⟩
  | done k => exact absurd h.2 (by omega)

lemma PStateExt {n : Nat} (a b : PState n) (h1 : a.reg = b.reg)
    (h2 : a.pc = b.pc) (h3 : a.calls = b.calls) : a = b := by
  cases a
  cases b
  simp_all

lemma PInv_init (K n : Nat) : PInv K (initP n) := by
  refine ⟨Or.inl rfl, fun t => trivial, fun _ => ⟨rfl, fun t h => h⟩, ?_, ?_⟩
  · intro h
    exact absurd h (show ¬((-1 : Int) = -2) by decide)
  · intro h
    exact absurd h (show ¬((0 : Int) ≤ -1) by decide)

lemma PInv_samereg {K n : Nat} {s : PState n} (h : PInv K s) (t : Fin n) (p : TPc)
    (hnw : ¬ isWinner p) (hnt : ¬ isWinner (s.pc t))
    (hlocal : localOK K s.reg p) :
    PInv K ⟨s.reg, Function.update s.pc t p, s.calls⟩ := by
  obtain ⟨h1, h2, h3, h4, h5⟩ := h
  refine ⟨h1, ?_, ?_, ?_, ?_⟩
  · intro u
    by_cases hu : u = t
    · subst hu
      show localOK K s.reg (Function.update s.pc u p u)
      rw [Function.update_same]
      exact hlocal
    · show localOK K s.reg (Function.update s.pc t p u)
      rw [Function.update_noteq hu]
      exact h2 u
  · intro hr
    obtain ⟨hc, hw⟩ := h3 hr
    exact ⟨hc, noWinner_update hnw hw⟩
  · intro hr
    obtain ⟨w, hw, huniq⟩ := h4 hr
    have hwt : w ≠ t := by
      intro he
      rcases hw with ⟨hcw, _⟩ | ⟨hcw, _⟩
      · rw [he] at hcw
        exact hnt (by rw [hcw]; trivial)
      · rw [he] at hcw
        exact hnt (by rw [hcw]; trivial)
    refine ⟨w, ?_, ?_⟩
    · show (Function.update s.pc t p w = TPc.create ∧ s.calls = 0) ∨
          (Function.update s.pc t p w = TPc.publish (keyInt K) ∧ s.calls = 1)
      rw [Function.update_noteq hwt]
      exact hw
    · intro u hu
      have hu' : isWinner (Function.update s.pc t p u) := hu
      by_cases hut : u = t
      · subst hut
        rw [Function.update_same] at hu'
        exact absurd hu' hnw
      · rw [Function.update_noteq hut] at hu'
        exact huniq u hu'
  · intro hr
    obtain ⟨hc, hw⟩ := h5 hr
    exact ⟨hc, noWinner_update hnw hw⟩

lemma PInv_step {K n : Nat} {s s' : PState n} (hInv : PInv K s) (hs : PStep K s s') :
    PInv K s' := by
  have h0 := keyInt_nonneg K
  obtain ⟨h1, h2, h3, h4, h5⟩ := hInv
  cases hs with
  | load t hpc =>
      refine PInv_samereg ⟨h1, h2, h3, h4, h5⟩ t _ (not_isWinner_cas _) ?_ ?_
      · rw [hpc]
        exact not_isWinner_start
      · refine ⟨h1, fun hk => ?_⟩
        rcases h1 with h | h | h
        · omega
        · omega
        · exact h
  | casWin t k hpc hreg =>
      obtain ⟨hc, hnw⟩ := h3 hreg
      refine ⟨Or.inr (Or.inl rfl), ?_, ?_, ?_, ?_⟩
      · intro u
        by_cases hu : u = t
        · subst hu
          show localOK K (-2) (Function.update s.pc u TPc.create u)
          rw [Function.update_same]
          exact rfl
        · show localOK K (-2) (Function.update s.pc t TPc.create u)
          rw [Function.update_noteq hu]
          have hu2 := h2 u
          rw [hreg] at hu2
          exact localOK_neg1_to_neg2 hu2
      · intro hr
        have hr' : (-2 : Int) = -1 := hr
        exact absurd hr' (by decide)
      · intro _
        refine ⟨t, Or.inl ⟨?_, hc⟩, ?_⟩
        · show Function.update s.pc t TPc.create t = TPc.create
          rw [Function.update_same]
        · intro u hu
          have hu' : isWinner (Function.update s.pc t TPc.create u) := hu
          by_cases hut : u = t
          · exact hut
          · rw [Function.update_noteq hut] at hu'
            exact absurd hu' (hnw u)
      · intro hr
        have hr' : (0 : Int) ≤ -2 := hr
        exact absurd hr' (by decide)
  | casLose t k hpc hreg =>
      refine PInv_samereg ⟨h1, h2, h3, h4, h5⟩ t _ (not_isWinner_spin _) ?_ ?_
      · rw [hpc]
        exact not_isWinner_cas _
      · have hu2 := h2 t
        rw [hpc] at hu2
        exact hu2
  | createKey t hpc =>
      have hu2 := h2 t
      rw [hpc] at hu2
      have hreg2 : s.reg = -2 := hu2
      obtain ⟨w, hw, huniq⟩ := h4 hreg2
      have hwt : t = w := huniq t (by rw [hpc]; trivial)
      have hcalls : s.calls = 0 := by
        rcases hw with ⟨_, hc⟩ | ⟨hcw, _⟩
        · exact hc
        · rw [← hwt, hpc] at hcw
          exact absurd hcw (by intro hcon; exact TPc.noConfusion hcon)
      refine ⟨Or.inr (Or.inl hreg2), ?_, ?_, ?_, ?_⟩
      · intro u
        by_cases hu : u = t
        · subst hu
          show localOK K s.reg (Function.update s.pc u (TPc.publish (keyInt K)) u)
          rw [Function.update_same]
          exact ⟨rfl, hreg2⟩
        · show localOK K s.reg (Function.update s.pc t (TPc.publish (keyInt K)) u)
          rw [Function.update_noteq hu]
          exact h2 u
      · intro hr
        have hr' : s.reg = -1 := hr
        rw [hreg2] at hr'
        exact absurd hr' (by decide)
      · intro _
        refine ⟨t, Or.inr ⟨?_, by rw [hcalls]⟩, ?_⟩
        · show Function.update s.pc t (TPc.publish (keyInt K)) t = TPc.publish (keyInt K)
          rw [Function.update_same]
        · intro u hu
          have hu' : isWinner (Function.update s.pc t (TPc.publish (keyInt K)) u) := hu
          by_cases hut : u = t
          · exact hut
          · rw [Function.update_noteq hut] at hu'
            exact (huniq u hu').trans hwt.symm
      · intro hr
        have hr' : (0 : Int) ≤ s.reg := hr
        rw [hreg2] at hr'
        exact absurd hr' (by decide)
  | publishKey t k hpc =>
      have hu2 := h2 t
      rw [hpc] at hu2
      obtain ⟨hkK, hreg2⟩ := hu2
      obtain ⟨w, hw, huniq⟩ := h4 hreg2
      have hwt : t = w := huniq t (by rw [hpc]; trivial)
      have hcalls1 : s.calls = 1 := by
        rcases hw with ⟨hcw, _⟩ | ⟨_, hc⟩
        · rw [← hwt, hpc] at hcw
          exact absurd hcw (by intro hcon; exact TPc.noConfusion hcon)
        · exact hc
      subst hkK
      refine ⟨Or.inr (Or.inr rfl), ?_, ?_, ?_, ?_⟩
      · intro u
        by_cases hu : u = t
        · subst hu
          show localOK K (keyInt K) (Function.update s.pc u (TPc.spin (keyInt K)) u)
          rw [Function.update_same]
          exact ⟨Or.inr (Or.inr rfl), fun _ => rfl⟩
        · show localOK K (keyInt K) (Function.update s.pc t (TPc.spin (keyInt K)) u)
          rw [Function.update_noteq hu]
          have hu3 := h2 u
          rw [hreg2] at hu3
          refine localOK_neg2_to_key hu3 ?_
          intro hw'
          exact hu ((huniq u hw').trans hwt.symm)
      · intro hr
        have hr' : keyInt K = -1 := hr
        omega
      · intro hr
        have hr' : keyInt K = -2 := hr
        omega
      · intro _
        refine ⟨hcalls1, ?_⟩
        intro u
        show ¬ isWinner (Function.update s.pc t (TPc.spin (keyInt K)) u)
        by_cases hu : u = t
        · subst hu
          rw [Function.update_same]
          exact not_isWinner_spin _
        · rw [Function.update_noteq hu]
          intro hw'
          exact hu ((huniq u hw').trans hwt.symm)
  | spinExit t k hpc hk =>
      have hu2 := h2 t
      rw [hpc] at hu2
      obtain ⟨hmem, himp⟩ := hu2
      have hregK := himp hk
      have hkK : k = keyInt K := by
        rcases hmem with h | h | h
        · omega
        · omega
        · exact h
      refine PInv_samereg ⟨h1, h2, h3, h4, h5⟩ t _ (not_isWinner_done _) ?_ ?_
      · rw [hpc]
        exact not_isWinner_spin _
      · exact ⟨hkK, hregK⟩
  | spinLoop t k hpc hk =>
      refine PInv_samereg ⟨h1, h2, h3, h4, h5⟩ t _ (not_isWinner_spin _) ?_ ?_
      · rw [hpc]
        exact not_isWinner_spin _
      · refine ⟨h1, fun hk' => ?_⟩
        rcases h1 with h | h | h
        · omega
        · omega
        · exact h

lemma PInv_reach {K n : Nat} {s : PState n} (h : PReach K s) : PInv K s := by
  induction h with
  | init => exact PInv_init K n
  | step hr hs ih => exact PInv_step ih hs

lemma PStep_reg_facts {K n : Nat} {s s' : PState n} (hInv : PInv K s) (hs : PStep K s s') :
    (0 ≤ s.reg → s'.reg = s.reg) ∧
    (s'.reg ≠ s.reg → (s.reg = -1 ∧ s'.reg = -2) ∨ (s.reg = -2 ∧ s'.reg = keyInt K)) ∧
    (s'.calls ≠ s.calls → s.calls = 0 ∧ s'.calls = s.calls + 1) := by
  obtain ⟨h1, h2, h3, h4, h5⟩ := hInv
  cases hs with
  | load t hpc =>
      exact ⟨fun _ => rfl, fun hne => absurd rfl hne, fun hne => absurd rfl hne⟩
  | casWin t k hpc hreg =>
      refine ⟨?_, fun _ => Or.inl ⟨hreg, rfl⟩, fun hne => absurd rfl hne⟩
      intro hge
      rw [hreg] at hge
      exact absurd hge (by decide)
  | casLose t k hpc hreg =>
      exact ⟨fun _ => rfl, fun hne => absurd rfl hne, fun hne => absurd rfl hne⟩
  | createKey t hpc =>
      have hreg2 : s.reg = -2 := by
        have hu2 := h2 t
        rw [hpc] at hu2
        exact hu2
      obtain ⟨w, hw, huniq⟩ := h4 hreg2
      have hwt : t = w := huniq t (by rw [hpc]; trivial)
      have hcalls : s.calls = 0 := by
        rcases hw with ⟨_, hc⟩ | ⟨hcw, _⟩
        · exact hc
        · rw [← hwt, hpc] at hcw
          exact absurd hcw (by intro hcon; exact TPc.noConfusion hcon)
      exact ⟨fun _ => rfl, fun hne => absurd rfl hne, fun _ => ⟨hcalls, rfl⟩⟩
  | publishKey t k hpc =>
      have hu2 := h2 t
      rw [hpc] at hu2
      obtain ⟨hkK, hreg2⟩ := hu2
      refine ⟨?_, fun _ => Or.inr ⟨hreg2, hkK⟩, fun hne => absurd rfl hne⟩
      intro hge
      rw [hreg2] at hge
      exact absurd hge (by decide)
  | spinExit t k hpc hk =>
      exact ⟨fun _ => rfl, fun hne => absurd rfl hne, fun hne => absurd rfl hne⟩
  | spinLoop t k hpc hk =>
      exact ⟨fun _ => rfl, fun hne => absurd rfl hne, fun hne => absurd rfl hne⟩

lemma PReach_done_one (K : Nat) :
    PReach K (⟨keyInt K, fun _ => TPc.done (keyInt K), 1⟩ : PState 1) := by
  have h0 : PReach K (initP 1) := PReach.init
  have h1 := PReach.step h0 (PStep.load (initP 1) 0 rfl)
  have h2 := PReach.step h1 (PStep.casWin _ 0 (-1) rfl rfl)
  have h3 := PReach.step h2 (PStep.createKey _ 0 rfl)
  have h4 := PReach.step h3 (PStep.publishKey _ 0 (keyInt K) rfl)
  have h5 := PReach.step h4 (PStep.spinExit _ 0 (keyInt K) rfl (keyInt_nonneg K))
  convert h5 using 1
  refine PStateExt _ _ rfl ?_ rfl
  funext u
  have hu : u = 0 := Subsingleton.elim u 0
  rw [hu]
  rfl

/-- Embedding of the fast path of `LLThreadLocal::get_key`: load the
register; a nonnegative value is returned cast to u32 (`key as u32`); a
negative value takes the slow path (the protocol above), which is the
none case here. -/
def get_key_fast (reg : Int) : Option Nat :=
  if 0 ≤ reg then some (toU32 reg) else none

/-- C2 (code bug): the claim says deallocate returns normally when the OS
unmap call reports success (0) and terminates fatally on failure
(nonzero).  The source has the assertion inverted: `assert!(result != 0)`
aborts exactly when `munmap` returns 0 (success) and returns normally on
any nonzero (failure) result, e.g. the -1 that `munmap` returns on error. -/
theorem C2_deallocate_assert_inverted :
    deallocate 0 = Outcome.abort ∧
    deallocate (-1) = Outcome.ret () ∧
    deallocate 1 = Outcome.ret () := by
  refine ⟨?_, ?_, ?_⟩ <;> decide

/-- C3 (counterexample): the claim quantifies over every detected node
and distance table.  At detected node 2^31 the source casts the u32 node
to i32, obtaining a negative value, so the candidate scan `0..original`
is empty and the node itself is returned, even though candidate 0
satisfies distance(0, d) = 10 ≤ 11 and 0 < 2^31. -/
theorem C3_counterexample :
    select_node (fun _ _ => 10) (2 ^ 31) = 2 ^ 31 ∧
    (2 ^ 31 : Nat) ≠ 0 ∧
    (fun (_ : Int) (_ : Int) => (10 : Int)) 0 ((2 ^ 31 : Nat) : Int) ≤ 11 ∧
    (0 : Nat) < 2 ^ 31 := by
  refine ⟨by decide, by decide, by decide, by decide⟩

/-- C3 (amended): for every distance table and every detected node d
that is representable as a nonnegative i32 (d < 2^31), select_node
returns the smallest candidate c in [0, d) with distance(c, d) ≤ 11, and
d itself when no such candidate exists (the reference scan
select_node_ref, taken from the spec); current_node is select_node
applied to the detected node. -/
theorem C3_select_node_clusters (dist : Int → Int → Int) (d : Nat) (h : d < 2 ^ 31) :
    select_node dist d = select_node_ref dist d ∧
    current_node dist d = select_node dist d := by
  have hmod : d % 2 ^ 32 = d := Nat.mod_eq_of_lt (by omega)
  have hI : toI32 d = (d : Int) := by
    unfold toI32
    split <;> omega
  constructor
  · unfold select_node select_node_ref
    rw [hI, Int.toNat_natCast]
    cases hf : (List.range d).find? (fun (c : Nat) => decide (dist (c : Int) (d : Int) ≤ 11)) with
    | none =>
        show toU32 (d : Int) = d
        unfold toU32
        omega
    | some c =>
        have hc : c < d := List.mem_range.mp (List.mem_of_find?_eq_some hf)
        show c % 2 ^ 32 = c
        exact Nat.mod_eq_of_lt (by omega)
  · unfold current_node
    rw [hmod]

/-- C3 (witness): at the synthetic distance table of the spec, detecting
node 2 yields node 0 (the first candidate with distance ≤ 11), and
detecting node 0 yields node 0. -/
theorem C3_select_node_clusters_witness :
    (2 : Nat) < 2 ^ 31 ∧
    select_node synthDist 2 = select_node_ref synthDist 2 ∧
    select_node_ref synthDist 2 = 0 ∧
    select_node synthDist 0 = 0 := by
  refine ⟨by decide, (C3_select_node_clusters synthDist 2 (by decide)).1, by decide, by decide⟩

/-- C4: for sizes that are positive multiples of the huge page size and
alignment requests at most the huge page size, and an OS mmap call whose
successful results are huge-page aligned and nonzero, allocate returns
the null region exactly when the OS call fails, and otherwise a region
whose address is a nonzero multiple of the huge page size and whose
length equals the requested size. -/
theorem C4_allocate_success_shape (size align os : Nat)
    (h1 : size % HUGE_PAGE_SIZE = 0) (h2 : 0 < size) (h3 : align ≤ HUGE_PAGE_SIZE)
    (h4 : os ≠ MMAP_FAILED → os % HUGE_PAGE_SIZE = 0 ∧ 0 < os) :
    (allocate size align os = Outcome.ret (0, size) ↔ os = MMAP_FAILED) ∧
    (os ≠ MMAP_FAILED →
      allocate size align os = Outcome.ret (os, size) ∧ os % HUGE_PAGE_SIZE = 0 ∧ 0 < os) := by
  by_cases hf : os = MMAP_FAILED
  · subst hf
    have hA : allocate size align MMAP_FAILED = Outcome.ret (0, size) := by
      unfold allocate mmap_simplified
      simp [h1, Nat.not_lt.mpr h3]
    exact ⟨by simp [hA], fun hc => absurd rfl hc⟩
  · obtain ⟨ha, hpos⟩ := h4 hf
    have hA : allocate size align os = Outcome.ret (os, size) := by
      unfold allocate mmap_simplified
      simp [h1, Nat.not_lt.mpr h3, hf, ha]
    refine ⟨?_, fun _ => ⟨hA, ha, hpos⟩⟩
    rw [hA]
    constructor
    · intro hr
      have : os = 0 := by
        have := congrArg (fun o => match o with | Outcome.ret p => p.1 | Outcome.abort => 0) hr
        simpa using this
      omega
    · intro hc
      exact absurd hc hf

/-- C4 (witness): a successful, aligned, nonzero OS result at a valid
layout yields exactly that region with the requested length. -/
theorem C4_allocate_success_shape_witness :
    allocate HUGE_PAGE_SIZE HUGE_PAGE_SIZE (2 * HUGE_PAGE_SIZE) =
      Outcome.ret (2 * HUGE_PAGE_SIZE, HUGE_PAGE_SIZE) :=
  ((C4_allocate_success_shape HUGE_PAGE_SIZE HUGE_PAGE_SIZE (2 * HUGE_PAGE_SIZE)
      (by decide) (by decide) (le_refl _)
      (fun _ => ⟨by decide, by decide⟩)).2 (by decide)).1

/-- C5 (counterexample): the claim says a size that is not a positive
multiple of the huge page size — in particular size 0 — makes allocate
abort without attempting the OS mapping.  In the source the check is
`size % HUGE_PAGE_SIZE == 0`, which size 0 passes, so allocate proceeds
to the OS call: with a failing mmap it returns the null region, and with
a successful mmap it returns that mapping — it does not abort. -/
theorem C5_counterexample :
    allocate 0 1 MMAP_FAILED = Outcome.ret (0, 0) ∧
    allocate 0 1 (2 * HUGE_PAGE_SIZE) = Outcome.ret (2 * HUGE_PAGE_SIZE, 0) := by
  refine ⟨by decide, by decide⟩

/-- C5 (amended): for every layout whose size is not a multiple of the
huge page size (size 0, being a multiple, is accepted and forwarded to
the OS call), or whose alignment exceeds the huge page size, allocate
aborts; the result is Outcome.abort for every possible OS mapping
result, i.e. independently of — and hence without relying on — the OS
mapping. -/
theorem C5_precondition_abort (size align : Nat)
    (h : size % HUGE_PAGE_SIZE ≠ 0 ∨ HUGE_PAGE_SIZE < align) :
    ∀ os : Nat, allocate size align os = Outcome.abort := by
  intro os
  unfold allocate
  rcases h with h | h
  · simp [h]
  · by_cases h0 : size % HUGE_PAGE_SIZE = 0 <;> simp [h0, h]

/-- C5 (witness): a size of 5 bytes (not a multiple of the huge page
size) aborts, for an arbitrary concrete OS result. -/
theorem C5_precondition_abort_witness :
    (5 % HUGE_PAGE_SIZE ≠ 0 ∨ HUGE_PAGE_SIZE < 1) ∧ allocate 5 1 0 = Outcome.abort :=
  ⟨Or.inl (by decide), C5_precondition_abort 5 1 (Or.inl (by decide)) 0⟩

/-- C8: a nonzero result from the OS key-creation call makes create_key
abort, and a nonzero result from the OS store call makes the store step
of set abort; a zero result returns normally with the created key
(resp. unit), and the Outcome type returns no error value to the caller
and performs no retry (one OS interaction per call, by construction). -/
theorem C8_os_failures_fatal :
    (∀ r : Int, ∀ k : Nat, create_key r k = Outcome.abort ↔ r ≠ 0) ∧
    (∀ r : Int, set_store r = Outcome.abort ↔ r ≠ 0) ∧
    (∀ k : Nat, create_key 0 k = Outcome.ret ((k % 2 ^ 32 : Nat) : Int)) ∧
    set_store 0 = Outcome.ret () := by
  refine ⟨fun r k => ?_, fun r => ?_, fun k => ?_, ?_⟩
  · unfold create_key; split <;> simp_all
  · unfold set_store; split <;> simp_all
  · unfold create_key; simp
  · unfold set_store; simp

/-- C8 (witness): concrete failing OS results abort both operations, and
concrete successes return normally. -/
theorem C8_os_failures_fatal_witness :
    create_key 1 3 = Outcome.abort ∧ set_store (-1) = Outcome.abort ∧
    create_key 0 3 = Outcome.ret 3 ∧ set_store 0 = Outcome.ret () :=
  ⟨(C8_os_failures_fatal.1 1 3).mpr (by decide),
   (C8_os_failures_fatal.2.1 (-1)).mpr (by decide),
   C8_os_failures_fatal.2.2.1 3,
   C8_os_failures_fatal.2.2.2⟩

/-- C6: get has no side effects — the state (key register, created
keys, OS stored values, key-creation call count) is returned unchanged —
and, whenever the slot's key register is not yet Initialized (-1 or -2),
get returns the null pointer, given that the OS returns null for keys it
never created and that the two sentinel keys 2^32-1 and 2^32-2 (the
truncations of -1 and -2) are among the uncreated keys. -/
theorem C6_get_pure_and_null (s : TLState) (t : Nat)
    (hreg : s.reg = -1 ∨ s.reg = -2)
    (hos : ∀ k : Nat, s.created k = false → s.tls t k = 0)
    (h1 : s.created 4294967295 = false) (h2 : s.created 4294967294 = false) :
    (LLget s t).1 = s ∧ (LLget s t).2 = 0 := by
  refine ⟨rfl, ?_⟩
  show s.tls t (toU32 s.reg) = 0
  rcases hreg with h | h
  · rw [h, show toU32 (-1) = 4294967295 from by decide]
    exact hos _ h1
  · rw [h, show toU32 (-2) = 4294967294 from by decide]
    exact hos _ h2

/-- C6 (witness): in the pristine uninitialized state, get leaves the
state unchanged and returns null. -/
theorem C6_get_pure_and_null_witness :
    (LLget ⟨-1, fun _ => false, fun _ _ => 0, 0⟩ 0).1
        = (⟨-1, fun _ => false, fun _ _ => 0, 0⟩ : TLState) ∧
    (LLget ⟨-1, fun _ => false, fun _ _ => 0, 0⟩ 0).2 = 0 :=
  C6_get_pure_and_null ⟨-1, fun _ => false, fun _ _ => 0, 0⟩ 0 (Or.inl rfl)
    (fun _ _ => rfl) rfl rfl

/-- C7: per-thread isolation.  For any sequence of set operations by
arbitrary threads containing a set of value v by thread A with no later
set by A, a subsequent get on thread A returns v, while get on a thread
B that never set for this slot returns null, regardless of what the
other threads have set. -/
theorem C7_per_thread_isolation (K : Nat) (ops1 ops2 : List (Nat × Nat)) (A B v : Nat)
    (hA : A ∉ ops2.map Prod.fst)
    (hB : B ∉ (ops1 ++ (A, v) :: ops2).map Prod.fst) :
    (LLget (execSets K (ops1 ++ (A, v) :: ops2)) A).2 = v ∧
    (LLget (execSets K (ops1 ++ (A, v) :: ops2)) B).2 = 0 := by
  have hform : execSets K (ops1 ++ (A, v) :: ops2)
      = midTL K (applyOps (fun _ => 0) (ops1 ++ (A, v) :: ops2)) := by
    cases ops1 with
    | nil => exact execSets_cons K (A, v) ops2
    | cons op ops1' =>
        rw [List.cons_append]
        exact execSets_cons K op (ops1' ++ (A, v) :: ops2)
  constructor
  · rw [hform, LLget_mid, applyOps_append]
    show applyOps (Function.update (applyOps (fun _ => 0) ops1) A v) ops2 A = v
    rw [applyOps_not_mem _ _ _ hA, Function.update_same]
  · rw [hform, LLget_mid, applyOps_not_mem _ _ _ hB]

/-- C7 (witness): threads 1 and 2 set values 42 and 7 around thread 0's
set of 99; a get on thread 0 returns 99 and a get on thread 3, which
never set, returns null. -/
theorem C7_per_thread_isolation_witness :
    (LLget (execSets 5 [(1, 42), (0, 99), (2, 7)]) 0).2 = 99 ∧
    (LLget (execSets 5 [(1, 42), (0, 99), (2, 7)]) 3).2 = 0 :=
  C7_per_thread_isolation 5 [(1, 42)] [(2, 7)] 0 3 99 (by decide) (by decide)

/-- C10: get always performs the OS get-value query, passing the key
register reduced modulo 2^32: the truncation of Uninitialized (-1) is
key 4294967295 and of UnderInitialization (-2) is key 4294967294, and on
an uninitialized slot get returns exactly whatever the OS store holds
under key 4294967295 — its null result depends on the OS, not on
skipping the query. -/
theorem C10_get_always_queries :
    (∀ (s : TLState) (t : Nat), (LLget s t).2 = s.tls t (toU32 s.reg)) ∧
    toU32 (-1) = 4294967295 ∧
    toU32 (-2) = 4294967294 ∧
    (∀ (g : Nat → Nat) (t : Nat),
      (LLget ⟨-1, fun _ => false, fun _ => g, 0⟩ t).2 = g 4294967295) := by
  refine ⟨fun s t => rfl, by decide, by decide, fun g t => ?_⟩
  show g (toU32 (-1)) = g 4294967295
  rw [show toU32 (-1) = 4294967295 from by decide]

/-- C1: under any interleaving of threads running the slow-path
protocol, every reachable state has the register holding only
Uninitialized (-1), UnderInitialization (-2) or the published
nonnegative key; at most one OS key-creation call is ever made, and any
step changing the call count raises it from 0 to 1; the register
transitions only from -1 to -2 (the compare-and-swap) and from -2 to the
key (the publishing store), and once nonnegative never changes — so each
of the two transitions happens at most once along any execution; and
every thread that completes the protocol holds the same nonnegative
published key, with the call count then exactly 1. -/
theorem C1_lazy_init_protocol (n K : Nat) (s : PState n) (h : PReach K s) :
    (s.reg = -1 ∨ s.reg = -2 ∨ (0 ≤ s.reg ∧ s.reg = keyInt K)) ∧
    s.calls ≤ 1 ∧
    (∀ t k, s.pc t = TPc.done k →
      k = keyInt K ∧ 0 ≤ k ∧ s.reg = keyInt K ∧ s.calls = 1) ∧
    (∀ s', PStep K s s' →
      (0 ≤ s.reg → s'.reg = s.reg) ∧
      (s'.reg ≠ s.reg →
        (s.reg = -1 ∧ s'.reg = -2) ∨ (s.reg = -2 ∧ s'.reg = keyInt K ∧ 0 ≤ s'.reg)) ∧
      (s'.calls ≠ s.calls → s.calls = 0 ∧ s'.calls = 1)) := by
  obtain ⟨h1, h2, h3, h4, h5⟩ := PInv_reach h
  have h0 := keyInt_nonneg K
  refine ⟨?_, ?_, ?_, ?_⟩
  · rcases h1 with hx | hx | hx
    · exact Or.inl hx
    · exact Or.inr (Or.inl hx)
    · exact Or.inr (Or.inr ⟨by rw [hx]; exact h0, hx⟩)
  · rcases h1 with hx | hx | hx
    · have := (h3 hx).1
      omega
    · obtain ⟨w, hw, _⟩ := h4 hx
      rcases hw with ⟨_, hc⟩ | ⟨_, hc⟩ <;> omega
    · have := (h5 (by rw [hx]; exact h0)).1
      omega
  · intro t k hdone
    have hu := h2 t
    rw [hdone] at hu
    obtain ⟨hk, hr⟩ := hu
    have hcalls := (h5 (by rw [hr]; exact h0)).1
    exact ⟨hk, by rw [hk]; exact h0, hr, hcalls⟩
  · intro s' hs
    obtain ⟨f1, f2, f3⟩ := PStep_reg_facts ⟨h1, h2, h3, h4, h5⟩ hs
    refine ⟨f1, ?_, ?_⟩
    · intro hne
      rcases f2 hne with ⟨ha, hb⟩ | ⟨ha, hb⟩
      · exact Or.inl ⟨ha, hb⟩
      · exact Or.inr ⟨ha, hb, by rw [hb]; exact h0⟩
    · intro hne
      obtain ⟨hz, ho⟩ := f3 hne
      exact ⟨hz, by omega⟩

/-- C1 (witness): a complete run of one thread reaches the terminal
state with the published key, where the call count is 1 and the finished
thread holds the published nonnegative key equal to the register. -/
theorem C1_lazy_init_protocol_witness :
    (⟨keyInt 5, fun _ => TPc.done (keyInt 5), 1⟩ : PState 1).calls ≤ 1 ∧
    (keyInt 5 = keyInt 5 ∧ 0 ≤ keyInt 5 ∧
      (⟨keyInt 5, fun _ => TPc.done (keyInt 5), 1⟩ : PState 1).reg = keyInt 5 ∧
      (⟨keyInt 5, fun _ => TPc.done (keyInt 5), 1⟩ : PState 1).calls = 1) :=
  ⟨(C1_lazy_init_protocol 1 5 ⟨keyInt 5, fun _ => TPc.done (keyInt 5), 1⟩
      (PReach_done_one 5)).2.1,
   (C1_lazy_init_protocol 1 5 ⟨keyInt 5, fun _ => TPc.done (keyInt 5), 1⟩
      (PReach_done_one 5)).2.2.1 0 (keyInt 5) rfl⟩

/-- C9: in every reachable protocol state the register holds -1, -2 or
a value in [0, 2^32) (the published key, a u32 widened to i64); on a
nonnegative register the narrowing cast to u32 is lossless and the fast
path of get_key returns exactly the published key; and the value a
finished thread returns, cast to u32, is also exactly the published
key. -/
theorem C9_register_range (n K : Nat) (s : PState n) (h : PReach K s) :
    (s.reg = -1 ∨ s.reg = -2 ∨ (0 ≤ s.reg ∧ s.reg < 2 ^ 32)) ∧
    (0 ≤ s.reg →
      ((toU32 s.reg : Nat) : Int) = s.reg ∧
      get_key_fast s.reg = some (toU32 s.reg) ∧
      s.reg = keyInt K ∧ toU32 s.reg = K % 2 ^ 32) ∧
    (∀ t k, s.pc t = TPc.done k → ((toU32 k : Nat) : Int) = k ∧ toU32 k = K % 2 ^ 32) := by
  obtain ⟨h1, h2, h3, h4, h5⟩ := PInv_reach h
  have h0 := keyInt_nonneg K
  have hlt := keyInt_lt K
  have htrunc : toU32 (keyInt K) = K % 2 ^ 32 := by
    unfold toU32 keyInt
    omega
  have hcast : ((toU32 (keyInt K) : Nat) : Int) = keyInt K := by
    rw [htrunc]
    unfold keyInt
    rfl
  refine ⟨?_, ?_, ?_⟩
  · rcases h1 with hx | hx | hx
    · exact Or.inl hx
    · exact Or.inr (Or.inl hx)
    · refine Or.inr (Or.inr ⟨by rw [hx]; exact h0, by rw [hx]; exact hlt⟩)
  · intro hge
    have hregK : s.reg = keyInt K := by
      rcases h1 with hx | hx | hx
      · rw [hx] at hge
        exact absurd hge (by decide)
      · rw [hx] at hge
        exact absurd hge (by decide)
      · exact hx
    rw [hregK]
    refine ⟨hcast, ?_, rfl, htrunc⟩
    unfold get_key_fast
    rw [if_pos h0]
  · intro t k hdone
    have hu := h2 t
    rw [hdone] at hu
    rw [hu.1]
    exact ⟨hcast, htrunc⟩

/-- C9 (witness): at the terminal state of a one-thread run with oracle
key 7, the register equals the published key, its u32 truncation is
lossless and the fast path returns it; the finished thread's key also
truncates losslessly to the published u32 key. -/
theorem C9_register_range_witness :
    (((toU32 (keyInt 7) : Nat) : Int) = keyInt 7 ∧
      get_key_fast (keyInt 7) = some (toU32 (keyInt 7)) ∧
      keyInt 7 = keyInt 7 ∧ toU32 (keyInt 7) = 7 % 2 ^ 32) ∧
    (((toU32 (keyInt 7) : Nat) : Int) = keyInt 7 ∧ toU32 (keyInt 7) = 7 % 2 ^ 32) :=
  ⟨(C9_register_range 1 7 ⟨keyInt 7, fun _ => TPc.done (keyInt 7), 1⟩
      (PReach_done_one 7)).2.1 (keyInt_nonneg 7),
   (C9_register_range 1 7 ⟨keyInt 7, fun _ => TPc.done (keyInt 7), 1⟩
      (PReach_done_one 7)).2.2 0 (keyInt 7) rfl⟩

end Llmalloc
